import Mathlib

/-!
Verification of the text-similarity evaluation toolkit: `simple_bleu`,
`rouge_l_f1` and `semantic_similarity` (fallback strategy), embedded from
`src/tests/unit/test_metrics.py`.

Scores modelled with exact arithmetic: `rouge_l_f1` and the Jaccard fallback
return rationals; `simple_bleu` returns a real number because its brevity
penalty uses `Real.exp`.
-/

/-- Single pass over the characters, accumulating the current token in
reverse: the body of whitespace splitting. -/
def splitWsAux : List Char → List Char → List String
  | [], acc => if acc = [] then [] else [String.mk acc.reverse]
  | c :: cs, acc =>
      if c.isWhitespace then
        if acc = [] then splitWsAux cs []
        else String.mk acc.reverse :: splitWsAux cs []
      else splitWsAux cs (c :: acc)

/-- Python `str.split()`: split on whitespace runs, dropping empty pieces. -/
def tokenize (s : String) : List String :=
  splitWsAux s.data []

/-- Python `str.lower()`: lowercase every character. -/
def strLower (s : String) : String :=
  String.mk (s.data.map Char.toLower)

/-- Python `s.lower().split()`: lowercase, then whitespace split. -/
def tokenizeLower (s : String) : List String :=
  tokenize (strLower s)

/-! ### LCS: mathematical recurrence and the source's suffix DP table -/

/-- Helper making `lcsLen` structurally recursive: given `f = lcsLen xs`,
computes `lcsLen (x :: xs)`. -/
def lcsLenAux (x : String) (f : List String → ℕ) : List String → ℕ
  | [] => 0
  | y :: ys => if x = y then 1 + f ys else max (f (y :: ys)) (lcsLenAux x f ys)

/-- Longest-common-subsequence length of two token sequences, by the textbook
recurrence. -/
def lcsLen : List String → List String → ℕ
  | [] => fun _ => 0
  | x :: xs => lcsLenAux x (lcsLen xs)

/-- One row of the source's suffix DP table: row `i` (for reference suffix
starting at `i`) computed right-to-left from row `i + 1` (`next`), exactly as
the inner `for j in range(m - 1, -1, -1)` loop of `rouge_l_f1`. -/
def lcsRow (ai : String) : List String → List ℕ → List ℕ
  | [], _ => [0]
  | bj :: brest, next =>
      let restRow := lcsRow ai brest next.tail
      (if ai = bj then 1 + next.tail.headD 0
       else max (next.headD 0) (restRow.headD 0)) :: restRow

/-- Row `0` of the DP table: rows are filled from row `n` (all zeros, the
initialised matrix) upward, as the outer `for i in range(n - 1, -1, -1)`. -/
def lcsTable (a b : List String) : List ℕ :=
  a.foldr (fun ai next => lcsRow ai b next) (List.replicate (b.length + 1) 0)

/-- `dp[0][0]` of the source's table: the value `lcs` used by `rouge_l_f1`. -/
def lcsDP (a b : List String) : ℕ :=
  (lcsTable a b).headD 0

/-! ### rouge_l_f1 -/

/-- `rouge_l_f1` on token lists: LCS via the DP table, then precision, recall
and their harmonic mean, with the source's guards. -/
def rougeF1 (a b : List String) : ℚ :=
  let lcs := lcsDP a b
  if lcs = 0 then 0
  else
    let prec : ℚ := if 0 < b.length then (lcs : ℚ) / (b.length : ℚ) else 0
    let recl : ℚ := if 0 < a.length then (lcs : ℚ) / (a.length : ℚ) else 0
    if prec + recl = 0 then 0 else 2 * prec * recl / (prec + recl)

/-- `rouge_l_f1(reference, hypothesis)`: case-sensitive whitespace split,
then ROUGE-L F1. -/
def rouge_l_f1 (reference hypothesis : String) : ℚ :=
  rougeF1 (tokenize reference) (tokenize hypothesis)

/-! ### simple_bleu -/

/-- `matches = sum(1 for t in hyp_tokens if t in ref_tokens)`. -/
def bleuMatches (refT hypT : List String) : ℕ :=
  (hypT.filter (fun t => t ∈ refT)).length

/-- `bp = 1.0`, overwritten with `exp(1 - ref_len / hyp_len)` when
`hyp_len < ref_len`. -/
noncomputable def brevityPenalty (refLen hypLen : ℕ) : ℝ :=
  if hypLen < refLen then Real.exp (1 - (refLen : ℝ) / (hypLen : ℝ)) else 1

/-- `simple_bleu(reference, hypothesis)`: lowercased whitespace split,
unigram precision (unclipped) times brevity penalty; `0.0` on an empty
hypothesis token list. -/
noncomputable def simple_bleu (reference hypothesis : String) : ℝ :=
  if tokenizeLower hypothesis = [] then 0
  else
    ((bleuMatches (tokenizeLower reference) (tokenizeLower hypothesis) : ℝ)
        / ((tokenizeLower hypothesis).length : ℝ))
      * brevityPenalty (tokenizeLower reference).length
          (tokenizeLower hypothesis).length

/-! ### semantic_similarity (fallback strategy) -/

/-- `semantic_similarity` under the always-available fallback strategy
(token-set Jaccard); the preferred TF-IDF strategy is an optional external
capability outside this core. -/
def semantic_similarity (reference hypothesis : String) : ℚ :=
  let a : Finset String := (tokenizeLower reference).toFinset
  let b : Finset String := (tokenizeLower hypothesis).toFinset
  if a = ∅ ∧ b = ∅ then 1
  else if a = ∅ ∨ b = ∅ then 0
  else ((a ∩ b).card : ℚ) / ((a ∪ b).card : ℚ)

/-! ### Basic facts about `lcsLen` -/

theorem lcsLen_nil_left (b : List String) : lcsLen [] b = 0 := rfl

theorem lcsLen_nil_right (a : List String) : lcsLen a [] = 0 := by
  cases a <;> rfl

theorem lcsLen_cons_cons (x y : String) (xs ys : List String) :
    lcsLen (x :: xs) (y :: ys) =
      if x = y then 1 + lcsLen xs ys
      else max (lcsLen xs (y :: ys)) (lcsLen (x :: xs) ys) := rfl

theorem lcsLen_le_length_left (a : List String) : ∀ b, lcsLen a b ≤ a.length := by
  induction a with
  | nil => intro b; rw [lcsLen_nil_left]; exact Nat.zero_le _
  | cons x xs ih =>
    intro b
    induction b with
    | nil => rw [lcsLen_nil_right]; exact Nat.zero_le _
    | cons y ys ihb =>
      rw [lcsLen_cons_cons]
      by_cases hxy : x = y
      · have := ih ys
        simp only [if_pos hxy, List.length_cons]
        omega
      · have h1 := ih (y :: ys)
        simp only [if_neg hxy, List.length_cons] at *
        omega

theorem lcsLen_le_length_right (a : List String) : ∀ b, lcsLen a b ≤ b.length := by
  induction a with
  | nil => intro b; rw [lcsLen_nil_left]; exact Nat.zero_le _
  | cons x xs ih =>
    intro b
    induction b with
    | nil => rw [lcsLen_nil_right]; exact Nat.zero_le _
    | cons y ys ihb =>
      rw [lcsLen_cons_cons]
      by_cases hxy : x = y
      · have := ih ys
        simp only [if_pos hxy, List.length_cons]
        omega
      · have h1 := ih (y :: ys)
        simp only [if_neg hxy, List.length_cons] at *
        omega

theorem lcsLen_comm (a : List String) : ∀ b, lcsLen a b = lcsLen b a := by
  induction a with
  | nil => intro b; rw [lcsLen_nil_left, lcsLen_nil_right]
  | cons x xs ih =>
    intro b
    induction b with
    | nil => rw [lcsLen_nil_left, lcsLen_nil_right]
    | cons y ys ihb =>
      rw [lcsLen_cons_cons, lcsLen_cons_cons]
      by_cases hxy : x = y
      · rw [if_pos hxy, if_pos hxy.symm, ih ys]
      · rw [if_neg hxy, if_neg (fun h => hxy h.symm), ih (y :: ys), ihb,
          Nat.max_comm]

theorem lcsLen_self (a : List String) : lcsLen a a = a.length := by
  induction a with
  | nil => rfl
  | cons x xs ih => rw [lcsLen_cons_cons, if_pos rfl, ih, List.length_cons]; omega

theorem ne_nil_of_lcsLen_ne_zero {a b : List String} (h : lcsLen a b ≠ 0) :
    a ≠ [] ∧ b ≠ [] := by
  constructor
  · rintro rfl; exact h (lcsLen_nil_left b)
  · rintro rfl; exact h (lcsLen_nil_right a)

/-! ### `lcsLen` computes the mathematical LCS length -/

theorem length_le_lcsLen (a : List String) :
    ∀ b c, List.Sublist c a → List.Sublist c b → c.length ≤ lcsLen a b := by
  induction a with
  | nil =>
    intro b c hca _
    rw [List.sublist_nil.mp hca]
    exact Nat.zero_le _
  | cons x xs ih =>
    intro b
    induction b with
    | nil =>
      intro c _ hcb
      rw [List.sublist_nil.mp hcb]
      exact Nat.zero_le _
    | cons y ys ihb =>
      intro c hca hcb
      rw [lcsLen_cons_cons]
      by_cases hxy : x = y
      · rw [if_pos hxy]
        cases c with
        | nil => exact Nat.zero_le _
        | cons z cs =>
          have hcs_xs : List.Sublist cs xs := by
            cases hca with
            | cons _ h => exact (List.sublist_cons_self z cs).trans h
            | cons₂ _ h => exact h
          have hcs_ys : List.Sublist cs ys := by
            cases hcb with
            | cons _ h => exact (List.sublist_cons_self z cs).trans h
            | cons₂ _ h => exact h
          have := ih ys cs hcs_xs hcs_ys
          simp only [List.length_cons]
          omega
      · rw [if_neg hxy]
        cases c with
        | nil => exact Nat.zero_le _
        | cons z cs =>
          cases hca with
          | cons _ h =>
            exact le_max_of_le_left (ih (y :: ys) (z :: cs) h hcb)
          | cons₂ _ h1 =>
            cases hcb with
            | cons _ h2 =>
              exact le_max_of_le_right (ihb (x :: cs) (List.Sublist.cons₂ x h1) h2)
            | cons₂ _ h2 => exact absurd rfl hxy

theorem exists_common_subseq (a : List String) :
    ∀ b, ∃ c, List.Sublist c a ∧ List.Sublist c b ∧ c.length = lcsLen a b := by
  induction a with
  | nil =>
    intro b
    exact ⟨[], List.nil_sublist _, List.nil_sublist _, (lcsLen_nil_left b).symm⟩
  | cons x xs ih =>
    intro b
    induction b with
    | nil =>
      exact ⟨[], List.nil_sublist _, List.nil_sublist _, (lcsLen_nil_right _).symm⟩
    | cons y ys ihb =>
      rw [lcsLen_cons_cons]
      by_cases hxy : x = y
      · obtain ⟨c, hc1, hc2, hlen⟩ := ih ys
        refine ⟨x :: c, List.Sublist.cons₂ x hc1, ?_, ?_⟩
        · rw [hxy]; exact List.Sublist.cons₂ y hc2
        · rw [if_pos hxy, List.length_cons, hlen]; omega
      · rw [if_neg hxy]
        rcases Nat.le_total (lcsLen xs (y :: ys)) (lcsLen (x :: xs) ys) with hle | hle
        · obtain ⟨c, hc1, hc2, hlen⟩ := ihb
          exact ⟨c, hc1, List.Sublist.cons y hc2, by rw [hlen, Nat.max_eq_right hle]⟩
        · obtain ⟨c, hc1, hc2, hlen⟩ := ih (y :: ys)
          exact ⟨c, List.Sublist.cons x hc1, hc2, by rw [hlen, Nat.max_eq_left hle]⟩

/-! ### The source's DP table computes `lcsLen` -/

theorem tails_map_headD (f : List String → ℕ) (l : List String) :
    ((l.tails.map f).headD 0) = f l := by
  cases l <;> simp

theorem lcsRow_tails (ai : String) (xs : List String) :
    ∀ b, lcsRow ai b (b.tails.map (lcsLen xs)) = b.tails.map (lcsLen (ai :: xs)) := by
  intro b
  induction b with
  | nil => simp [lcsRow, lcsLen_nil_right]
  | cons bj brest ihb =>
    rw [List.tails_cons, List.map_cons, lcsRow]
    simp only [List.tail_cons]
    rw [ihb, tails_map_headD, tails_map_headD, List.headD_cons,
      List.map_cons, lcsLen_cons_cons]

theorem lcsTable_eq_tails_map (a b : List String) :
    lcsTable a b = b.tails.map (lcsLen a) := by
  induction a with
  | nil =>
    rw [lcsTable, List.foldr_nil]
    refine (List.eq_replicate_iff.mpr ⟨?_, ?_⟩).symm
    · rw [List.length_map, List.length_tails]
    · intro v hv
      obtain ⟨t, _, rfl⟩ := List.mem_map.mp hv
      rfl
  | cons x xs ih =>
    rw [lcsTable, List.foldr_cons]
    have : List.foldr (fun ai next => lcsRow ai b next) (List.replicate (b.length + 1) 0) xs
        = lcsTable xs b := rfl
    rw [this, ih, lcsRow_tails]

theorem lcsDP_eq_lcsLen (a b : List String) : lcsDP a b = lcsLen a b := by
  rw [lcsDP, lcsTable_eq_tails_map, tails_map_headD]

/-! ### Characterisation and bounds of `rougeF1` -/

theorem rougeF1_eq_zero {a b : List String} (h : lcsLen a b = 0) :
    rougeF1 a b = 0 := by
  simp [rougeF1, lcsDP_eq_lcsLen, h]

theorem rougeF1_of_ne_zero {a b : List String} (h : lcsLen a b ≠ 0) :
    rougeF1 a b =
      2 * ((lcsLen a b : ℚ) / (b.length : ℚ)) * ((lcsLen a b : ℚ) / (a.length : ℚ))
        / ((lcsLen a b : ℚ) / (b.length : ℚ) + (lcsLen a b : ℚ) / (a.length : ℚ)) := by
  obtain ⟨ha, hb⟩ := ne_nil_of_lcsLen_ne_zero h
  have ha' : 0 < a.length := List.length_pos.mpr ha
  have hb' : 0 < b.length := List.length_pos.mpr hb
  have hL : (0 : ℚ) < (lcsLen a b : ℚ) :=
    Nat.cast_pos.mpr (Nat.pos_of_ne_zero h)
  have hp : (0 : ℚ) < (lcsLen a b : ℚ) / (b.length : ℚ) :=
    div_pos hL (Nat.cast_pos.mpr hb')
  have hr : (0 : ℚ) < (lcsLen a b : ℚ) / (a.length : ℚ) :=
    div_pos hL (Nat.cast_pos.mpr ha')
  simp only [rougeF1, lcsDP_eq_lcsLen]
  rw [if_neg h, if_pos hb', if_pos ha', if_neg (ne_of_gt (add_pos hp hr))]

theorem rougeF1_nonneg (a b : List String) : 0 ≤ rougeF1 a b := by
  by_cases h : lcsLen a b = 0
  · rw [rougeF1_eq_zero h]
  · rw [rougeF1_of_ne_zero h]
    positivity

theorem rougeF1_le_one (a b : List String) : rougeF1 a b ≤ 1 := by
  by_cases h : lcsLen a b = 0
  · rw [rougeF1_eq_zero h]; norm_num
  · rw [rougeF1_of_ne_zero h]
    obtain ⟨ha, hb⟩ := ne_nil_of_lcsLen_ne_zero h
    have ha' : 0 < a.length := List.length_pos.mpr ha
    have hb' : 0 < b.length := List.length_pos.mpr hb
    have hL : (0 : ℚ) < (lcsLen a b : ℚ) :=
      Nat.cast_pos.mpr (Nat.pos_of_ne_zero h)
    have hp : (0 : ℚ) < (lcsLen a b : ℚ) / (b.length : ℚ) :=
      div_pos hL (Nat.cast_pos.mpr hb')
    have hr : (0 : ℚ) < (lcsLen a b : ℚ) / (a.length : ℚ) :=
      div_pos hL (Nat.cast_pos.mpr ha')
    have hp1 : (lcsLen a b : ℚ) / (b.length : ℚ) ≤ 1 := by
      rw [div_le_one (Nat.cast_pos.mpr hb')]
      exact_mod_cast lcsLen_le_length_right a b
    have hr1 : (lcsLen a b : ℚ) / (a.length : ℚ) ≤ 1 := by
      rw [div_le_one (Nat.cast_pos.mpr ha')]
      exact_mod_cast lcsLen_le_length_left a b
    rw [div_le_one (add_pos hp hr)]
    nlinarith [mul_nonneg (sub_nonneg.mpr hp1) hr.le,
      mul_nonneg (sub_nonneg.mpr hr1) hp.le]

/-! ### Facts about `simple_bleu` -/

theorem bleuMatches_le_length (refT hypT : List String) :
    bleuMatches refT hypT ≤ hypT.length :=
  List.length_filter_le _ _

theorem bleuMatches_self {l : List String} : bleuMatches l l = l.length := by
  rw [bleuMatches, List.filter_eq_self.mpr]
  intro t ht
  simpa using ht

theorem bleuMatches_nil_left (hypT : List String) : bleuMatches [] hypT = 0 := by
  rw [bleuMatches, List.filter_eq_nil_iff.mpr, List.length_nil]
  intro t _
  simp

theorem brevityPenalty_pos (rl hl : ℕ) : 0 < brevityPenalty rl hl := by
  rw [brevityPenalty]
  split
  · exact Real.exp_pos _
  · norm_num

theorem brevityPenalty_le_one {rl hl : ℕ} (h : 0 < hl) :
    brevityPenalty rl hl ≤ 1 := by
  rw [brevityPenalty]
  split
  · next hlt =>
    have hh : (0 : ℝ) < (hl : ℝ) := Nat.cast_pos.mpr h
    have h1 : (1 : ℝ) ≤ (rl : ℝ) / (hl : ℝ) := by
      rw [le_div_iff₀ hh, one_mul]
      exact_mod_cast hlt.le
    calc Real.exp (1 - (rl : ℝ) / (hl : ℝ))
        ≤ Real.exp 0 := Real.exp_le_exp.mpr (by linarith)
      _ = 1 := Real.exp_zero
  · exact le_refl 1

theorem simple_bleu_of_ne_nil {r h : String} (hh : tokenizeLower h ≠ []) :
    simple_bleu r h =
      ((bleuMatches (tokenizeLower r) (tokenizeLower h) : ℝ)
          / ((tokenizeLower h).length : ℝ))
        * brevityPenalty (tokenizeLower r).length (tokenizeLower h).length := by
  rw [simple_bleu, if_neg hh]

theorem simple_bleu_nonneg (r h : String) : 0 ≤ simple_bleu r h := by
  rw [simple_bleu]
  split
  · exact le_refl 0
  · exact mul_nonneg (by positivity) (brevityPenalty_pos _ _).le

theorem simple_bleu_le_one (r h : String) : simple_bleu r h ≤ 1 := by
  rw [simple_bleu]
  split
  · norm_num
  · next hne =>
    have hl : 0 < (tokenizeLower h).length :=
      List.length_pos.mpr hne
    have hprec : (bleuMatches (tokenizeLower r) (tokenizeLower h) : ℝ)
        / ((tokenizeLower h).length : ℝ) ≤ 1 := by
      rw [div_le_one (Nat.cast_pos.mpr hl)]
      exact_mod_cast bleuMatches_le_length _ _
    exact mul_le_one₀ hprec (brevityPenalty_pos _ _).le (brevityPenalty_le_one hl)

/-! ### Facts about `semantic_similarity` (fallback strategy) -/

theorem semantic_similarity_nonneg (r h : String) : 0 ≤ semantic_similarity r h := by
  simp only [semantic_similarity]
  split
  · norm_num
  · split
    · exact le_refl 0
    · positivity

theorem semantic_similarity_le_one (r h : String) : semantic_similarity r h ≤ 1 := by
  simp only [semantic_similarity]
  split
  · exact le_refl 1
  · split
    · norm_num
    · next h1 h2 =>
      push_neg at h2
      obtain ⟨x, hx⟩ := Finset.nonempty_iff_ne_empty.mpr h2.1
      have hcard : 0 < ((tokenizeLower r).toFinset ∪ (tokenizeLower h).toFinset).card :=
        Finset.card_pos.mpr ⟨x, Finset.mem_union_left _ hx⟩
      rw [div_le_one (Nat.cast_pos.mpr hcard)]
      exact_mod_cast Finset.card_le_card (Finset.inter_subset_union)

theorem semantic_similarity_comm (r h : String) :
    semantic_similarity r h = semantic_similarity h r := by
  by_cases ha : (tokenizeLower r).toFinset = ∅ <;>
    by_cases hb : (tokenizeLower h).toFinset = ∅ <;>
      simp [semantic_similarity, ha, hb, Finset.inter_comm, Finset.union_comm]

theorem rougeF1_comm (a b : List String) : rougeF1 a b = rougeF1 b a := by
  by_cases h : lcsLen a b = 0
  · rw [rougeF1_eq_zero h, rougeF1_eq_zero (by rw [lcsLen_comm b a]; exact h)]
  · have h' : lcsLen b a ≠ 0 := by rw [lcsLen_comm b a]; exact h
    rw [rougeF1_of_ne_zero h, rougeF1_of_ne_zero h', lcsLen_comm b a]
    ring

/-! ### Claim theorems -/

/-- C1: `rouge_l_f1` tokenizes reference and hypothesis by whitespace split and
computes the LCS length of the token sequences via the suffix DP table; that
table value equals the mathematical LCS length (the greatest length of a common
subsequence of the two token lists); when the LCS length is 0 the function
returns 0, and otherwise it returns the harmonic mean
`2 * precision * recall / (precision + recall)` with
`precision = LCS / |hypothesis tokens|` and `recall = LCS / |reference tokens|`. -/
theorem c1_rouge_l_f1_lcs_correct (r h : String) :
    lcsDP (tokenize r) (tokenize h) = lcsLen (tokenize r) (tokenize h) ∧
    (∃ c, List.Sublist c (tokenize r) ∧ List.Sublist c (tokenize h) ∧
      c.length = lcsLen (tokenize r) (tokenize h)) ∧
    (∀ c, List.Sublist c (tokenize r) → List.Sublist c (tokenize h) →
      c.length ≤ lcsLen (tokenize r) (tokenize h)) ∧
    (lcsLen (tokenize r) (tokenize h) = 0 → rouge_l_f1 r h = 0) ∧
    (lcsLen (tokenize r) (tokenize h) ≠ 0 →
      rouge_l_f1 r h =
        2 * ((lcsLen (tokenize r) (tokenize h) : ℚ) / ((tokenize h).length : ℚ))
          * ((lcsLen (tokenize r) (tokenize h) : ℚ) / ((tokenize r).length : ℚ))
          / ((lcsLen (tokenize r) (tokenize h) : ℚ) / ((tokenize h).length : ℚ)
            + (lcsLen (tokenize r) (tokenize h) : ℚ) / ((tokenize r).length : ℚ))) := by
  refine ⟨lcsDP_eq_lcsLen _ _, exists_common_subseq _ _, length_le_lcsLen _ _, ?_, ?_⟩
  · intro h0
    exact rougeF1_eq_zero h0
  · intro h0
    exact rougeF1_of_ne_zero h0

theorem c1_rouge_l_f1_lcs_correct_witness :
    rouge_l_f1 "a" "b" = 0 ∧
    rouge_l_f1 "a b" "a" =
      2 * ((1 : ℚ) / 1) * ((1 : ℚ) / 2) / ((1 : ℚ) / 1 + (1 : ℚ) / 2) := by
  constructor
  · exact (c1_rouge_l_f1_lcs_correct "a" "b").2.2.2.1 (by decide)
  · have h2 := (c1_rouge_l_f1_lcs_correct "a b" "a").2.2.2.2 (by decide)
    have e1 : tokenize "a b" = ["a", "b"] := by decide
    have e2 : tokenize "a" = ["a"] := by decide
    have e3 : lcsLen (tokenize "a b") (tokenize "a") = 1 := by decide
    rw [h2, e3, e1, e2]
    norm_num

/-- C2: for a non-empty lowercased-tokenized hypothesis, `simple_bleu` returns
`precision * brevity_penalty` where precision counts hypothesis tokens found
anywhere in the reference (with repetition, unclipped) over the hypothesis
length; the brevity penalty is `exp(1 - ref_len/hyp_len)` when
`hyp_len < ref_len` and `1` otherwise; unclipped counting is exhibited on a
token repeated beyond its reference multiplicity; and the brevity-penalised
score for reference "Short sentence for testing" against hypothesis
"Short sentence" is strictly below the unpenalised precision 1. -/
theorem c2_simple_bleu_precision_brevity :
    (∀ r h : String, tokenizeLower h ≠ [] →
      simple_bleu r h =
        ((bleuMatches (tokenizeLower r) (tokenizeLower h) : ℝ)
            / ((tokenizeLower h).length : ℝ))
          * brevityPenalty (tokenizeLower r).length (tokenizeLower h).length) ∧
    (∀ rl hl : ℕ, hl < rl →
      brevityPenalty rl hl = Real.exp (1 - (rl : ℝ) / (hl : ℝ))) ∧
    (∀ rl hl : ℕ, rl ≤ hl → brevityPenalty rl hl = 1) ∧
    bleuMatches (tokenizeLower "a") (tokenizeLower "a a a") = 3 ∧
    simple_bleu "Short sentence for testing" "Short sentence" < 1 := by
  refine ⟨?_, ?_, ?_, by decide, ?_⟩
  · intro r h hh
    exact simple_bleu_of_ne_nil hh
  · intro rl hl hlt
    rw [brevityPenalty, if_pos hlt]
  · intro rl hl hle
    rw [brevityPenalty, if_neg (Nat.not_lt.mpr hle)]
  · have e1 : tokenizeLower "Short sentence for testing"
        = ["short", "sentence", "for", "testing"] := by decide
    have e2 : tokenizeLower "Short sentence" = ["short", "sentence"] := by decide
    have hne : tokenizeLower "Short sentence" ≠ [] := by rw [e2]; simp
    have hm : bleuMatches ["short", "sentence", "for", "testing"]
        ["short", "sentence"] = 2 := by decide
    have hval : simple_bleu "Short sentence for testing" "Short sentence"
        = Real.exp (-1 : ℝ) := by
      rw [simple_bleu_of_ne_nil hne, e1, e2, hm, brevityPenalty, if_pos (by decide)]
      norm_num
    rw [hval]
    calc Real.exp (-1 : ℝ) < Real.exp 0 := Real.exp_lt_exp.mpr (by norm_num)
      _ = 1 := Real.exp_zero

theorem c2_simple_bleu_precision_brevity_witness :
    simple_bleu "a b" "a" =
      ((bleuMatches (tokenizeLower "a b") (tokenizeLower "a") : ℝ)
          / ((tokenizeLower "a").length : ℝ))
        * brevityPenalty (tokenizeLower "a b").length (tokenizeLower "a").length ∧
    brevityPenalty 4 2 = Real.exp (1 - (4 : ℝ) / (2 : ℝ)) ∧
    brevityPenalty 2 2 = 1 :=
  ⟨c2_simple_bleu_precision_brevity.1 "a b" "a" (by decide),
    by
      have h := c2_simple_bleu_precision_brevity.2.1 4 2 (by norm_num)
      rw [h]
      norm_num,
    c2_simple_bleu_precision_brevity.2.2.1 2 2 (le_refl 2)⟩

/-- C3: both `simple_bleu` and `rouge_l_f1` always return a value in the
closed interval `[0, 1]`. -/
theorem c3_scores_bounded (r h : String) :
    0 ≤ simple_bleu r h ∧ simple_bleu r h ≤ 1 ∧
    0 ≤ rouge_l_f1 r h ∧ rouge_l_f1 r h ≤ 1 :=
  ⟨simple_bleu_nonneg r h, simple_bleu_le_one r h,
    rougeF1_nonneg (tokenize r) (tokenize h), rougeF1_le_one (tokenize r) (tokenize h)⟩

theorem c3_scores_bounded_witness :
    0 ≤ simple_bleu "Hello world" "Completely different" ∧
    simple_bleu "Hello world" "Completely different" ≤ 1 ∧
    0 ≤ rouge_l_f1 "Hello world" "Completely different" ∧
    rouge_l_f1 "Hello world" "Completely different" ≤ 1 :=
  c3_scores_bounded "Hello world" "Completely different"

/-- C4: on any string whose tokenization is non-empty, both metrics score the
pair `(t, t)` as exactly `1`. -/
theorem c4_identity (t : String) (h1 : tokenizeLower t ≠ []) (h2 : tokenize t ≠ []) :
    simple_bleu t t = 1 ∧ rouge_l_f1 t t = 1 := by
  constructor
  · rw [simple_bleu_of_ne_nil h1, bleuMatches_self]
    have hl : (0 : ℝ) < ((tokenizeLower t).length : ℝ) :=
      Nat.cast_pos.mpr (List.length_pos.mpr h1)
    rw [div_self hl.ne', brevityPenalty, if_neg (lt_irrefl _), mul_one]
  · have hLs : lcsLen (tokenize t) (tokenize t) = (tokenize t).length := lcsLen_self _
    have hne : lcsLen (tokenize t) (tokenize t) ≠ 0 := by
      rw [hLs]
      exact (List.length_pos.mpr h2).ne'
    show rougeF1 (tokenize t) (tokenize t) = 1
    rw [rougeF1_of_ne_zero hne, hLs]
    have hn : (0 : ℚ) < ((tokenize t).length : ℚ) :=
      Nat.cast_pos.mpr (List.length_pos.mpr h2)
    rw [div_self hn.ne']
    norm_num

theorem c4_identity_witness :
    simple_bleu "Hello world" "Hello world" = 1 ∧
    rouge_l_f1 "Hello world" "Hello world" = 1 :=
  c4_identity "Hello world" (by decide) (by decide)

theorem semantic_similarity_of_ne_nil {r h : String}
    (hr : tokenizeLower r ≠ []) (hh : tokenizeLower h ≠ []) :
    semantic_similarity r h =
      (((tokenizeLower r).toFinset ∩ (tokenizeLower h).toFinset).card : ℚ)
        / (((tokenizeLower r).toFinset ∪ (tokenizeLower h).toFinset).card : ℚ) := by
  simp [semantic_similarity, List.toFinset_eq_empty_iff, hr, hh]

/-- C5: under the fallback token-set Jaccard strategy, `semantic_similarity`
returns 1 when both token sets are empty, 0 when exactly one is empty, and
`|intersection| / |union|` of the lowercased token sets otherwise; the result
always lies in `[0, 1]` (the function is total, so no error can reach the
caller). -/
theorem c5_semantic_fallback_spec (r h : String) :
    (tokenizeLower r = [] → tokenizeLower h = [] → semantic_similarity r h = 1) ∧
    (tokenizeLower r = [] → tokenizeLower h ≠ [] → semantic_similarity r h = 0) ∧
    (tokenizeLower r ≠ [] → tokenizeLower h = [] → semantic_similarity r h = 0) ∧
    (tokenizeLower r ≠ [] → tokenizeLower h ≠ [] →
      semantic_similarity r h =
        (((tokenizeLower r).toFinset ∩ (tokenizeLower h).toFinset).card : ℚ)
          / (((tokenizeLower r).toFinset ∪ (tokenizeLower h).toFinset).card : ℚ)) ∧
    0 ≤ semantic_similarity r h ∧ semantic_similarity r h ≤ 1 := by
  refine ⟨?_, ?_, ?_, fun hr hh => semantic_similarity_of_ne_nil hr hh,
    semantic_similarity_nonneg r h, semantic_similarity_le_one r h⟩
  · intro hr hh
    simp [semantic_similarity, hr, hh]
  · intro hr hh
    simp [semantic_similarity, List.toFinset_eq_empty_iff, hr, hh]
  · intro hr hh
    simp [semantic_similarity, List.toFinset_eq_empty_iff, hr, hh]

theorem c5_semantic_fallback_spec_witness :
    semantic_similarity "" "" = 1 ∧
    semantic_similarity "" "a" = 0 ∧
    semantic_similarity "a b" " " = 0 :=
  ⟨(c5_semantic_fallback_spec "" "").1 (by decide) (by decide),
    (c5_semantic_fallback_spec "" "a").2.1 (by decide) (by decide),
    (c5_semantic_fallback_spec "a b" " ").2.2.1 (by decide) (by decide)⟩

/-- C6: `simple_bleu` maps degenerate inputs to the sentinel 0 without
failing: an empty (or whitespace-only) hypothesis gives 0; with an empty
reference and non-empty hypothesis the brevity penalty is 1 and the score
is 0. -/
theorem c6_simple_bleu_degenerate (r h : String) :
    simple_bleu r "" = 0 ∧
    (tokenizeLower h = [] → simple_bleu r h = 0) ∧
    (tokenizeLower r = [] → tokenizeLower h ≠ [] →
      brevityPenalty (tokenizeLower r).length (tokenizeLower h).length = 1 ∧
      simple_bleu r h = 0) := by
  refine ⟨?_, ?_, ?_⟩
  · have e : tokenizeLower "" = [] := by decide
    rw [simple_bleu, if_pos e]
  · intro he
    rw [simple_bleu, if_pos he]
  · intro hr hh
    have hbp : brevityPenalty (tokenizeLower r).length (tokenizeLower h).length
        = 1 := by
      rw [hr, brevityPenalty, if_neg]
      simp
    refine ⟨hbp, ?_⟩
    rw [simple_bleu_of_ne_nil hh, hbp, mul_one, hr, bleuMatches_nil_left]
    norm_num

theorem c6_simple_bleu_degenerate_witness :
    simple_bleu "abc" "" = 0 ∧
    simple_bleu "x" "  " = 0 ∧
    (brevityPenalty (tokenizeLower "").length (tokenizeLower "a").length = 1 ∧
      simple_bleu "" "a" = 0) :=
  ⟨(c6_simple_bleu_degenerate "abc" "x").1,
    (c6_simple_bleu_degenerate "x" "  ").2.1 (by decide),
    (c6_simple_bleu_degenerate "" "a").2.2 (by decide) (by decide)⟩

/-- C7: `rouge_l_f1` tokenizes case-sensitively (it works on the plain
whitespace split of its inputs) while `simple_bleu` lowercases first: the
pair ("Hello", "hello"), which differs only in letter case, scores 0 under
`rouge_l_f1` and 1 under `simple_bleu`. -/
theorem c7_case_sensitivity :
    (∀ r h : String, rouge_l_f1 r h = rougeF1 (tokenize r) (tokenize h)) ∧
    strLower "Hello" = strLower "hello" ∧
    "Hello" ≠ "hello" ∧
    rouge_l_f1 "Hello" "hello" = 0 ∧
    simple_bleu "Hello" "hello" = 1 := by
  refine ⟨fun r h => rfl, by decide, by decide, ?_, ?_⟩
  · exact rougeF1_eq_zero (by decide)
  · have hne : tokenizeLower "hello" ≠ [] := by decide
    have e1 : tokenizeLower "Hello" = ["hello"] := by decide
    have e2 : tokenizeLower "hello" = ["hello"] := by decide
    have hm : bleuMatches ["hello"] ["hello"] = 1 := by decide
    rw [simple_bleu_of_ne_nil hne, e1, e2, hm, brevityPenalty, if_neg (lt_irrefl _)]
    norm_num

/-- C8: under the fallback Jaccard strategy, a near-duplicate hypothesis
scores strictly higher than an unrelated one against the same reference. -/
theorem c8_jaccard_discrimination :
    semantic_similarity "The cat sat on the mat" "An airplane flew across the sky"
      < semantic_similarity "The cat sat on the mat" "A cat was sitting on the mat" := by
  have e0 : tokenizeLower "The cat sat on the mat"
      = ["the", "cat", "sat", "on", "the", "mat"] := by decide
  have e1 : tokenizeLower "A cat was sitting on the mat"
      = ["a", "cat", "was", "sitting", "on", "the", "mat"] := by decide
  have e2 : tokenizeLower "An airplane flew across the sky"
      = ["an", "airplane", "flew", "across", "the", "sky"] := by decide
  have h1 : semantic_similarity "The cat sat on the mat" "A cat was sitting on the mat"
      = (4 : ℚ) / 8 := by
    rw [semantic_similarity_of_ne_nil (by decide) (by decide), e0, e1,
      (by decide : (List.toFinset ["the", "cat", "sat", "on", "the", "mat"]
        ∩ List.toFinset ["a", "cat", "was", "sitting", "on", "the", "mat"]).card = 4),
      (by decide : (List.toFinset ["the", "cat", "sat", "on", "the", "mat"]
        ∪ List.toFinset ["a", "cat", "was", "sitting", "on", "the", "mat"]).card = 8)]
    norm_num
  have h2 : semantic_similarity "The cat sat on the mat" "An airplane flew across the sky"
      = (1 : ℚ) / 10 := by
    rw [semantic_similarity_of_ne_nil (by decide) (by decide), e0, e2,
      (by decide : (List.toFinset ["the", "cat", "sat", "on", "the", "mat"]
        ∩ List.toFinset ["an", "airplane", "flew", "across", "the", "sky"]).card = 1),
      (by decide : (List.toFinset ["the", "cat", "sat", "on", "the", "mat"]
        ∪ List.toFinset ["an", "airplane", "flew", "across", "the", "sky"]).card = 10)]
    norm_num
  rw [h1, h2]
  norm_num

/-- C9: on the reference "The quick brown fox jumps over the lazy dog" and its
prefix "The quick brown fox jumps", `rouge_l_f1` is strictly between 0.3
and 1 (its exact value is 5/7). -/
theorem c9_rouge_prefix_bounds :
    (3 / 10 : ℚ) < rouge_l_f1 "The quick brown fox jumps over the lazy dog"
        "The quick brown fox jumps" ∧
    rouge_l_f1 "The quick brown fox jumps over the lazy dog"
        "The quick brown fox jumps" < 1 := by
  have e1 : tokenize "The quick brown fox jumps over the lazy dog"
      = ["The", "quick", "brown", "fox", "jumps", "over", "the", "lazy", "dog"] := by decide
  have e2 : tokenize "The quick brown fox jumps"
      = ["The", "quick", "brown", "fox", "jumps"] := by decide
  have e3 : lcsLen (tokenize "The quick brown fox jumps over the lazy dog")
      (tokenize "The quick brown fox jumps") = 5 := by decide
  have hval : rouge_l_f1 "The quick brown fox jumps over the lazy dog"
      "The quick brown fox jumps" = 5 / 7 := by
    have h5 := rougeF1_of_ne_zero (a := tokenize "The quick brown fox jumps over the lazy dog")
      (b := tokenize "The quick brown fox jumps") (by rw [e3]; norm_num)
    rw [show rouge_l_f1 "The quick brown fox jumps over the lazy dog"
        "The quick brown fox jumps"
      = rougeF1 (tokenize "The quick brown fox jumps over the lazy dog")
        (tokenize "The quick brown fox jumps") from rfl, h5, e3, e1, e2]
    norm_num
  rw [hval]
  constructor <;> norm_num

/-- C10: `rouge_l_f1` and the fallback `semantic_similarity` are symmetric in
their two arguments; `simple_bleu` is not, as swapping reference and
hypothesis changes the score on a concrete pair. -/
theorem c10_symmetry :
    (∀ a b : String, rouge_l_f1 a b = rouge_l_f1 b a) ∧
    (∀ a b : String, semantic_similarity a b = semantic_similarity b a) ∧
    (∃ a b : String, simple_bleu a b ≠ simple_bleu b a) := by
  refine ⟨?_, ?_, ?_⟩
  · intro a b
    exact rougeF1_comm (tokenize a) (tokenize b)
  · intro a b
    exact semantic_similarity_comm a b
  · refine ⟨"x y", "x", ?_⟩
    have h1 : simple_bleu "x y" "x" = Real.exp (-1 : ℝ) := by
      have hne : tokenizeLower "x" ≠ [] := by decide
      have e1 : tokenizeLower "x y" = ["x", "y"] := by decide
      have e2 : tokenizeLower "x" = ["x"] := by decide
      have hm : bleuMatches ["x", "y"] ["x"] = 1 := by decide
      rw [simple_bleu_of_ne_nil hne, e1, e2, hm, brevityPenalty, if_pos (by decide)]
      norm_num
    have h2 : simple_bleu "x" "x y" = 1 / 2 := by
      have hne : tokenizeLower "x y" ≠ [] := by decide
      have e1 : tokenizeLower "x" = ["x"] := by decide
      have e2 : tokenizeLower "x y" = ["x", "y"] := by decide
      have hm : bleuMatches ["x"] ["x", "y"] = 1 := by decide
      rw [simple_bleu_of_ne_nil hne, e1, e2, hm, brevityPenalty, if_neg (by decide)]
      norm_num
    rw [h1, h2]
    have h3 : Real.exp (-1 : ℝ) < 1 / 2 := by
      rw [Real.exp_neg]
      have he : (2 : ℝ) < Real.exp 1 := by
        have := Real.exp_one_gt_d9
        linarith
      rw [show (1 : ℝ) / 2 = 2⁻¹ by norm_num]
      exact inv_strictAnti₀ (by norm_num) he
    exact ne_of_lt h3
